import Mathlib

/-!
Verification of the range-analysis interval lattice and constraint graph
(RangeAnalysis.cpp).  Machine integers of the analysis width W are modelled
as Int together with explicit reduction into the W-bit twos-complement
window; the APInt sentinels Min, Max and Zero become intMin, intMax and 0.
-/

namespace RA

/-- The smallest signed W-bit value (the sentinel Min, treated as minus
infinity by the saturating arithmetic). -/
def intMin (W : Nat) : Int := -(2 ^ (W - 1))

/-- The largest signed W-bit value (the sentinel Max, treated as plus
infinity by the saturating arithmetic). -/
def intMax (W : Nat) : Int := 2 ^ (W - 1) - 1

/-- Reduction of an integer into the W-bit twos-complement window, the
effect of APInt wrap-around on overflow. -/
def wrap (W : Nat) (x : Int) : Int :=
  (x + 2 ^ (W - 1)) % 2 ^ W - 2 ^ (W - 1)

/-- The unsigned W-bit interpretation of a signed value, used by the
unsigned APInt operations udiv, urem, shifts and bitwise ops. -/
def toU (W : Nat) (x : Int) : Nat := (x % 2 ^ W).toNat

/-- Read an unsigned W-bit quantity back as a signed value. -/
def fromU (W : Nat) (n : Nat) : Int := wrap W n

/-- The three kinds of interval: Regular, Unknown and Empty
(enum RangeType in the source). -/
inductive RangeType
  | Regular
  | Unknown
  | Empty
deriving DecidableEq, Repr

/-- An interval of the lattice: lower bound l, upper bound u and kind
(class Range in the source; l and u are APInts of width W there). -/
structure Range where
  l : Int
  u : Int
  type : RangeType
deriving DecidableEq, Repr

/-- Range() default constructor: the full range [Min, Max]. -/
def fullRange (W : Nat) : Range := ⟨intMin W, intMax W, .Regular⟩

/-- Range(Min, Max, Unknown), the canonical Unknown interval. -/
def unknownRange (W : Nat) : Range := ⟨intMin W, intMax W, .Unknown⟩

/-- Range(Min, Max, Empty), the canonical Empty interval. -/
def emptyRange (W : Nat) : Range := ⟨intMin W, intMax W, .Empty⟩

def Range.isRegular (r : Range) : Bool := r.type == .Regular

def Range.isUnknown (r : Range) : Bool := r.type == .Unknown

def Range.isEmpty (r : Range) : Bool := r.type == .Empty

/-- Range::isMaxRange, true when both bounds sit at the sentinels. -/
def Range.isMaxRange (W : Nat) (r : Range) : Bool :=
  r.l == intMin W && r.u == intMax W

/-- Range::add.  A bound is computed (with APInt wrap-around) only when
neither source bound is the corresponding sentinel. -/
def Range.add (W : Nat) (a other : Range) : Range :=
  let l := if a.l ≠ intMin W ∧ other.l ≠ intMin W
    then wrap W (a.l + other.l) else intMin W
  let u := if a.u ≠ intMax W ∧ other.u ≠ intMax W
    then wrap W (a.u + other.u) else intMax W
  ⟨l, u, .Regular⟩

/-- Range::sub: [a, b] - [c, d] = [a - d, b - c] under saturation. -/
def Range.sub (W : Nat) (a other : Range) : Range :=
  let l := if a.l = intMin W ∨ other.u = intMax W
    then intMin W else wrap W (a.l - other.u)
  let u := if a.u = intMax W ∨ other.l = intMin W
    then intMax W else wrap W (a.u - other.l)
  ⟨l, u, .Regular⟩

/-- The MUL_HELPER macro: saturating product of two bounds. -/
def mulHelper (W : Nat) (x y : Int) : Int :=
  if x = intMax W then
    (if y < 0 then intMin W else if y = 0 then 0 else intMax W)
  else if y = intMax W then
    (if x < 0 then intMin W else if x = 0 then 0 else intMax W)
  else if x = intMin W then
    (if y < 0 then intMax W else if y = 0 then 0 else intMin W)
  else if y = intMin W then
    (if x < 0 then intMax W else if x = 0 then 0 else intMin W)
  else wrap W (x * y)

/-- Range::mul: full range absorbs; otherwise min and max of the four
corner products computed by MUL_HELPER. -/
def Range.mul (W : Nat) (a other : Range) : Range :=
  if a.isMaxRange W || other.isMaxRange W then fullRange W
  else
    let c0 := mulHelper W a.l other.l
    let c1 := mulHelper W a.l other.u
    let c2 := mulHelper W a.u other.l
    let c3 := mulHelper W a.u other.u
    ⟨min (min (min c0 c1) c2) c3, max (max (max c0 c1) c2) c3, .Regular⟩

/-- Range::udiv.  Each corner is guarded against sentinel bounds and a
zero divisor bound; skipped corners keep their sentinel defaults. -/
def Range.udiv (W : Nat) (a other : Range) : Range :=
  let ll := if a.l ≠ intMin W ∧ other.l ≠ intMin W ∧ other.l ≠ 0
    then fromU W (toU W a.l / toU W other.l) else intMin W
  let lu := if a.l ≠ intMin W ∧ other.u ≠ intMax W ∧ other.u ≠ 0
    then fromU W (toU W a.l / toU W other.u) else intMin W
  let ul := if a.u ≠ intMax W ∧ other.l ≠ intMin W ∧ other.l ≠ 0
    then fromU W (toU W a.u / toU W other.l) else intMax W
  let uu := if a.u ≠ intMax W ∧ other.u ≠ intMax W ∧ other.u ≠ 0
    then fromU W (toU W a.u / toU W other.u) else intMax W
  ⟨if ll < lu then ll else lu, if uu > ul then uu else ul, .Regular⟩

/-- Range::sdiv, same shape as udiv with signed truncated division. -/
def Range.sdiv (W : Nat) (a other : Range) : Range :=
  let ll := if a.l ≠ intMin W ∧ other.l ≠ intMin W ∧ other.l ≠ 0
    then wrap W (Int.tdiv a.l other.l) else intMin W
  let lu := if a.l ≠ intMin W ∧ other.u ≠ intMax W ∧ other.u ≠ 0
    then wrap W (Int.tdiv a.l other.u) else intMin W
  let ul := if a.u ≠ intMax W ∧ other.l ≠ intMin W ∧ other.l ≠ 0
    then wrap W (Int.tdiv a.u other.l) else intMax W
  let uu := if a.u ≠ intMax W ∧ other.u ≠ intMax W ∧ other.u ≠ 0
    then wrap W (Int.tdiv a.u other.u) else intMax W
  ⟨if ll < lu then ll else lu, if uu > ul then uu else ul, .Regular⟩

/-- Range::urem.  A divisor bound equal to zero returns the full range
up front; afterwards the four unsigned remainder corners. -/
def Range.urem (W : Nat) (a other : Range) : Range :=
  if other.l = 0 ∨ other.u = 0 then fullRange W
  else
    let ll := if a.l ≠ intMin W ∧ other.l ≠ intMin W
      then fromU W (toU W a.l % toU W other.l) else intMin W
    let lu := if a.l ≠ intMin W ∧ other.u ≠ intMax W
      then fromU W (toU W a.l % toU W other.u) else intMin W
    let ul := if a.u ≠ intMax W ∧ other.l ≠ intMin W
      then fromU W (toU W a.u % toU W other.l) else intMax W
    let uu := if a.u ≠ intMax W ∧ other.u ≠ intMax W
      then fromU W (toU W a.u % toU W other.u) else intMax W
    ⟨if ll < lu then ll else lu, if uu > ul then uu else ul, .Regular⟩

/-- Range::srem.  The zero-endpoint test comes first and returns the full
range; only then are the exact-zero-singleton and Empty divisors sent to
Empty, followed by the (now unreachable) straddle test and the corners. -/
def Range.srem (W : Nat) (a other : Range) : Range :=
  if other.l = 0 ∨ other.u = 0 then fullRange W
  else if other = (⟨0, 0, .Regular⟩ : Range) ∨ other = emptyRange W then
    emptyRange W
  else if (other.l < 0 ∧ 0 < other.u) ∨ other.l = 0 ∨ other.u = 0 then
    fullRange W
  else
    let ll := if a.l ≠ intMin W ∧ other.l ≠ intMin W
      then wrap W (Int.tmod a.l other.l) else intMin W
    let lu := if a.l ≠ intMin W ∧ other.u ≠ intMax W
      then wrap W (Int.tmod a.l other.u) else intMin W
    let ul := if a.u ≠ intMax W ∧ other.l ≠ intMin W
      then wrap W (Int.tmod a.u other.l) else intMax W
    let uu := if a.u ≠ intMax W ∧ other.u ≠ intMax W
      then wrap W (Int.tmod a.u other.u) else intMax W
    ⟨if ll < lu then ll else lu, if uu > ul then uu else ul, .Regular⟩

/-- Range::shl, corner-wise left shift (APInt shl wraps modulo 2^W and
yields zero once the shift amount reaches the bit width). -/
def Range.shl (W : Nat) (a other : Range) : Range :=
  let ll := if a.l ≠ intMin W ∧ other.l ≠ intMin W
    then fromU W (toU W a.l <<< toU W other.l) else intMin W
  let lu := if a.l ≠ intMin W ∧ other.u ≠ intMax W
    then fromU W (toU W a.l <<< toU W other.u) else intMin W
  let ul := if a.u ≠ intMax W ∧ other.l ≠ intMin W
    then fromU W (toU W a.u <<< toU W other.l) else intMax W
  let uu := if a.u ≠ intMax W ∧ other.u ≠ intMax W
    then fromU W (toU W a.u <<< toU W other.u) else intMax W
  ⟨if ll < lu then ll else lu, if uu > ul then uu else ul, .Regular⟩

/-- Range::lshr.  A negative dividend bound short-circuits to [0, Max];
otherwise corner-wise unsigned right shift. -/
def Range.lshr (W : Nat) (a other : Range) : Range :=
  if a.l < 0 ∨ a.u < 0 then ⟨0, intMax W, .Regular⟩
  else
    let ll := if a.l ≠ intMin W ∧ other.l ≠ intMin W
      then fromU W (toU W a.l >>> toU W other.l) else intMin W
    let lu := if a.l ≠ intMin W ∧ other.u ≠ intMax W
      then fromU W (toU W a.l >>> toU W other.u) else intMin W
    let ul := if a.u ≠ intMax W ∧ other.l ≠ intMin W
      then fromU W (toU W a.u >>> toU W other.l) else intMax W
    let uu := if a.u ≠ intMax W ∧ other.u ≠ intMax W
      then fromU W (toU W a.u >>> toU W other.u) else intMax W
    ⟨if ll < lu then ll else lu, if uu > ul then uu else ul, .Regular⟩

/-- Arithmetic right shift of a signed value: floor division by a power
of two, which keeps the sign bits (APInt ashr). -/
def ashrHelper (x : Int) (k : Nat) : Int := Int.fdiv x (2 ^ k)

/-- Range::ashr, corner-wise arithmetic right shift. -/
def Range.ashr (W : Nat) (a other : Range) : Range :=
  let ll := if a.l ≠ intMin W ∧ other.l ≠ intMin W
    then wrap W (ashrHelper a.l (toU W other.l)) else intMin W
  let lu := if a.l ≠ intMin W ∧ other.u ≠ intMax W
    then wrap W (ashrHelper a.l (toU W other.u)) else intMin W
  let ul := if a.u ≠ intMax W ∧ other.l ≠ intMin W
    then wrap W (ashrHelper a.u (toU W other.l)) else intMax W
  let uu := if a.u ≠ intMax W ∧ other.u ≠ intMax W
    then wrap W (ashrHelper a.u (toU W other.u)) else intMax W
  ⟨if ll < lu then ll else lu, if uu > ul then uu else ul, .Regular⟩

/-- Range::And, corner-wise bitwise conjunction on the unsigned
interpretations. -/
def Range.And (W : Nat) (a other : Range) : Range :=
  let ll := if a.l ≠ intMin W ∧ other.l ≠ intMin W
    then fromU W (Nat.land (toU W a.l) (toU W other.l)) else intMin W
  let lu := if a.l ≠ intMin W ∧ other.u ≠ intMax W
    then fromU W (Nat.land (toU W a.l) (toU W other.u)) else intMin W
  let ul := if a.u ≠ intMax W ∧ other.l ≠ intMin W
    then fromU W (Nat.land (toU W a.u) (toU W other.l)) else intMax W
  let uu := if a.u ≠ intMax W ∧ other.u ≠ intMax W
    then fromU W (Nat.land (toU W a.u) (toU W other.u)) else intMax W
  ⟨if ll < lu then ll else lu, if uu > ul then uu else ul, .Regular⟩

/-- Range::Or.  An Unknown operand yields Unknown; otherwise corner-wise
bitwise disjunction. -/
def Range.Or (W : Nat) (a other : Range) : Range :=
  if a.isUnknown || other.isUnknown then unknownRange W
  else
    let ll := if a.l ≠ intMin W ∧ other.l ≠ intMin W
      then fromU W (Nat.lor (toU W a.l) (toU W other.l)) else intMin W
    let lu := if a.l ≠ intMin W ∧ other.u ≠ intMax W
      then fromU W (Nat.lor (toU W a.l) (toU W other.u)) else intMin W
    let ul := if a.u ≠ intMax W ∧ other.l ≠ intMin W
      then fromU W (Nat.lor (toU W a.u) (toU W other.l)) else intMax W
    let uu := if a.u ≠ intMax W ∧ other.u ≠ intMax W
      then fromU W (Nat.lor (toU W a.u) (toU W other.u)) else intMax W
    ⟨if ll < lu then ll else lu, if uu > ul then uu else ul, .Regular⟩

/-- Range::Xor, corner-wise bitwise exclusive or. -/
def Range.Xor (W : Nat) (a other : Range) : Range :=
  let ll := if a.l ≠ intMin W ∧ other.l ≠ intMin W
    then fromU W (Nat.xor (toU W a.l) (toU W other.l)) else intMin W
  let lu := if a.l ≠ intMin W ∧ other.u ≠ intMax W
    then fromU W (Nat.xor (toU W a.l) (toU W other.u)) else intMin W
  let ul := if a.u ≠ intMax W ∧ other.l ≠ intMin W
    then fromU W (Nat.xor (toU W a.u) (toU W other.l)) else intMax W
  let uu := if a.u ≠ intMax W ∧ other.u ≠ intMax W
    then fromU W (Nat.xor (toU W a.u) (toU W other.u)) else intMax W
  ⟨if ll < lu then ll else lu, if uu > ul then uu else ul, .Regular⟩

/-- Range::intersectWith: Empty absorbs, Unknown is the identity, and
otherwise the pointwise max of lowers and min of uppers (which may leave
an inconsistent pair with l greater than u). -/
def Range.intersectWith (W : Nat) (a other : Range) : Range :=
  if a.isEmpty || other.isEmpty then emptyRange W
  else if a.isUnknown then other
  else if other.isUnknown then a
  else
    ⟨if a.l > other.l then a.l else other.l,
     if a.u < other.u then a.u else other.u, .Regular⟩

/-- Range::unionWith: Empty and Unknown are identities, and otherwise
the pointwise min of lowers and max of uppers. -/
def Range.unionWith (a other : Range) : Range :=
  if a.isEmpty then other
  else if other.isEmpty then a
  else if a.isUnknown then other
  else if other.isUnknown then a
  else
    ⟨if a.l < other.l then a.l else other.l,
     if a.u > other.u then a.u else other.u, .Regular⟩

/-- The binary opcodes routed to BinaryOp by the graph builder. -/
inductive BinOpcode
  | Add
  | Sub
  | Mul
  | UDiv
  | SDiv
  | URem
  | SRem
  | Shl
  | LShr
  | AShr
  | And
  | Or
  | Xor
deriving DecidableEq, Repr

/-- The opcode dispatch inside BinaryOp::eval. -/
def binOpApply (W : Nat) (opc : BinOpcode) (op1 op2 : Range) : Range :=
  match opc with
  | .Add => op1.add W op2
  | .Sub => op1.sub W op2
  | .Mul => op1.mul W op2
  | .UDiv => op1.udiv W op2
  | .SDiv => op1.sdiv W op2
  | .URem => op1.urem W op2
  | .SRem => op1.srem W op2
  | .Shl => op1.shl W op2
  | .LShr => op1.lshr W op2
  | .AShr => op1.ashr W op2
  | .And => op1.And W op2
  | .Or => op1.Or W op2
  | .Xor => op1.Xor W op2

/-- BinaryOp::eval.  Both operands Regular: run the opcode, promote an
inconsistent result to [Min, Max], then intersect with the operation
intersect unless it is the full range.  An Empty operand gives Empty;
anything else stays Unknown. -/
def BinaryOp.eval (W : Nat) (op1 op2 : Range) (opc : BinOpcode)
    (intersect : Range) : Range :=
  if op1.isRegular && op2.isRegular then
    let result := binOpApply W opc op1 op2
    let result := if result.l > result.u then fullRange W else result
    if !(intersect.isMaxRange W) then result.intersectWith W intersect
    else result
  else if op1.isEmpty || op2.isEmpty then emptyRange W
  else unknownRange W

/-- PhiOp::eval reads source 0 unconditionally and folds unionWith over
the remaining sources; with no sources the read is out of bounds, which
the embedding reports as none. -/
def PhiOp.eval (sources : List Range) : Option Range :=
  match sources with
  | [] => none
  | s :: rest => some (rest.foldl Range.unionWith s)

/-- ConstraintGraph::getRange as written in the source: the lookup in
vars is commented out and every query answers the canonical Unknown. -/
def ConstraintGraph.getRange (W : Nat) (vars : List (Nat × Range))
    (v : Nat) : Range :=
  unknownRange W

/-- Lookup of a value key in the vars map (the commented-out body of
getRange and the behaviour the design notes call intended). -/
def varsLookup (vars : List (Nat × Range)) (v : Nat) : Option Range :=
  (vars.find? (fun p => p.fst == v)).map Prod.snd

/-- An IR value as the graph sees it: an identity and, when the value is
a ConstantInt, its (sign-extended) numeric value. -/
structure IRValue where
  id : Nat
  constVal : Option Int
deriving DecidableEq, Repr

/-- VarNode::init.  A ConstantInt node always receives its singleton
interval; otherwise an outside node (no defining operation) receives
[Min, Max] and a defined node stays Unknown. -/
def VarNode.init (W : Nat) (v : IRValue) (outside : Bool) : Range :=
  match v.constVal with
  | some c => ⟨c, c, .Regular⟩
  | none => if outside then fullRange W else unknownRange W

/-- ConstraintGraph::buildVarNodes: every node of the vars map is
initialised, passing outside = true exactly when defMap has no entry
for the node. -/
def buildVarNodes (W : Nat) (defKeys : List Nat)
    (vars : List (IRValue × Range)) : List (IRValue × Range) :=
  vars.map (fun p => (p.fst, VarNode.init W p.fst (!(defKeys.contains p.fst.id))))

/-- The solver state: the current interval of each value. -/
def IntervalState : Type := List (Nat × Range)

/-- Current range of a value (VarNode::getRange). -/
def getRangeOf (W : Nat) (σ : IntervalState) (v : Nat) : Range :=
  match List.find? (fun p => p.fst == v) σ with
  | some p => p.snd
  | none => unknownRange W

/-- VarNode::setRange on the state. -/
def setRangeOf (σ : IntervalState) (v : Nat) (r : Range) : IntervalState :=
  List.map (fun p => if p.fst = v then (p.fst, r) else p) σ

/-- An operation as the worklist sees it: its sink and its eval
against the current state. -/
structure COp where
  sink : Nat
  evalFn : IntervalState → Range

/-- The component use map consumed by update. -/
def CompUseMap : Type := List (Nat × List COp)

/-- Use list of a value in the component use map. -/
def useListOf (um : CompUseMap) (v : Nat) : List COp :=
  match List.find? (fun p => p.fst == v) um with
  | some p => p.snd
  | none => []

/-- Meet::fixed: re-evaluate the operation, store the result at the
sink, and report whether the sink changed. -/
def Meet.fixed (W : Nat) (op : COp) (σ : IntervalState) :
    IntervalState × Bool :=
  let oldInterval := getRangeOf W σ op.sink
  let newInterval := op.evalFn σ
  (setRangeOf σ op.sink newInterval, decide (oldInterval ≠ newInterval))

/-- Set-like insertion into the active worklist. -/
def insertActive (actv : List Nat) (v : Nat) : List Nat :=
  if v ∈ actv then actv else actv ++ [v]

/-- Outcome of the bounded update: final state, final active set, and
the number of Meet::fixed re-evaluations performed. -/
structure UpdateResult where
  state : IntervalState
  active : List Nat
  evals : Nat

/-- The bounded overload of ConstraintGraph::update.  The outer loop
pops a value off the active set and walks its use list; before each
re-evaluation the iteration budget is checked, and on exhaustion the
active set is cleared and the procedure returns at once.  The pending
argument is the remainder of the use list currently being walked. -/
def updateBounded (W : Nat) (nIterations : Nat) (compUseMap : CompUseMap)
    (pending : List COp) (actv : List Nat) (σ : IntervalState) :
    UpdateResult :=
  match pending with
  | op :: rest =>
    match nIterations with
    | 0 => ⟨σ, [], 0⟩
    | n + 1 =>
      let step := Meet.fixed W op σ
      let actv1 := if step.snd then insertActive actv op.sink else actv
      let r := updateBounded W n compUseMap rest actv1 step.fst
      ⟨r.state, r.active, r.evals + 1⟩
  | [] =>
    match actv with
    | [] => ⟨σ, [], 0⟩
    | V :: restA =>
      updateBounded W nIterations compUseMap (useListOf compUseMap V) restA σ
termination_by (nIterations, actv.length, pending.length)

/-- Modelled from the spec: NUMBER_FIXED_ITERATIONS is defined in the
header RangeAnalysis.h, which is absent from the sources.  The spec
fixes the warmup cap at two times the SCC size, so the constant must
contribute no further iterations through the bitwise or at the call
site in findIntervals. -/
def NUMBER_FIXED_ITERATIONS : Nat := 0

/-- The iteration budget passed by findIntervals to the bounded update:
component.size() times 2, bitwise-or NUMBER_FIXED_ITERATIONS. -/
def warmupIterationBound (sccSize : Nat) : Nat :=
  Nat.lor (sccSize * 2) NUMBER_FIXED_ITERATIONS

/-- The warmup call in findIntervals for a multi-node SCC: the bounded
update started on the entry points with the warmup budget. -/
def warmupUpdate (W : Nat) (sccSize : Nat) (compUseMap : CompUseMap)
    (entryPoints : List Nat) (σ : IntervalState) : UpdateResult :=
  updateBounded W (warmupIterationBound sccSize) compUseMap [] entryPoints σ

/-- The key structure of the constraint graph: the keys of the vars map
and the useMap with, per key, the operations (op id, op sink) that use
the key. -/
structure CGraph where
  vars : List Nat
  useMap : List (Nat × List (Nat × Nat))
deriving DecidableEq, Repr

/-- The graph before building starts. -/
def emptyCG : CGraph := ⟨[], []⟩

/-- The keys present in the useMap. -/
def useKeys (g : CGraph) : List Nat := g.useMap.map Prod.fst

/-- ConstraintGraph::addVarNode: idempotent on the IR identity; a new
value receives its vars entry and its (empty) useMap entry together. -/
def addVarNode (g : CGraph) (v : Nat) : CGraph :=
  if v ∈ g.vars then g
  else ⟨v :: g.vars, (v, []) :: g.useMap⟩

/-- The unchecked useMap.find(v)->second.insert(op) pattern of the
operation builders: none models the invalid dereference taken when the
key is absent. -/
def useMapInsert (g : CGraph) (v : Nat) (op : Nat × Nat) :
    Option CGraph :=
  if v ∈ useKeys g then
    some ⟨g.vars,
      g.useMap.map (fun p => if p.fst = v then (p.fst, op :: p.snd) else p)⟩
  else none

/-- The source loop shared by addUnaryOp, addBinaryOp, addPhiOp,
addSigmaOp and the inter-procedural matcher: for each source, add its
VarNode and then insert the operation into that source's use list
through the unchecked find. -/
def addOpSources (g : CGraph) (op : Nat × Nat) (sources : List Nat) :
    Option CGraph :=
  sources.foldlM (fun acc s => useMapInsert (addVarNode acc s) s op) g

/-- An operation insertion: the sink VarNode is added first, then every
source is processed. -/
def addOp (g : CGraph) (opId sink : Nat) (sources : List Nat) :
    Option CGraph :=
  addOpSources (addVarNode g sink) (opId, sink) sources

/-- Nuutila::addControlDependenceEdges inserts the pseudo-edge with the
subscript operator, which creates the useMap entry when absent. -/
def bracketInsert (g : CGraph) (v : Nat) (op : Nat × Nat) : CGraph :=
  if v ∈ useKeys g then
    ⟨g.vars,
      g.useMap.map (fun p => if p.fst = v then (p.fst, op :: p.snd) else p)⟩
  else ⟨g.vars, (v, [op]) :: g.useMap⟩

/-- Nuutila::delControlDependenceEdges erases the ControlDep operations
from every use list; no key is removed. -/
def delControlDepEdges (g : CGraph) (cdIds : List Nat) : CGraph :=
  ⟨g.vars,
    g.useMap.map
      (fun p => (p.fst, p.snd.filter (fun op => !(cdIds.contains op.fst))))⟩

/-- The graph mutations performed over the lifetime of one analysis. -/
inductive GraphEvent
  | addVar (v : Nat)
  | addOperation (opId sink : Nat) (sources : List Nat)
  | addControlDep (opId sink bound : Nat)
  | delControlDeps (cdIds : List Nat)

/-- One graph mutation; none models an invalid unchecked dereference. -/
def stepGraph (g : CGraph) (e : GraphEvent) : Option CGraph :=
  match e with
  | .addVar v => some (addVarNode g v)
  | .addOperation opId sink sources => addOp g opId sink sources
  | .addControlDep opId sink bound =>
    some (bracketInsert g bound (opId, sink))
  | .delControlDeps cdIds => some (delControlDepEdges g cdIds)

/-- A whole graph-building history starting from the empty graph. -/
def runGraph (events : List GraphEvent) : Option CGraph :=
  events.foldlM stepGraph emptyCG

/-- The per-element loop of buildUseMap and propagateToNextSCC: each
member is processed in turn, and an invalid dereference (none) aborts
the walk. -/
def mapOption {A B : Type} (f : A -> Option B) : List A -> Option (List B)
  | [] => some []
  | x :: xs =>
    match f x, mapOption f xs with
    | some y, some ys => some (y :: ys)
    | _, _ => none

/-- ConstraintGraph::buildUseMap: for each component member the use
list is fetched through the unchecked useMap.find and restricted to the
operations whose sink lies in the component. -/
def buildCompUseMap (component : List Nat) (g : CGraph) :
    Option (List (Nat × List (Nat × Nat))) :=
  mapOption (fun v =>
    match List.find? (fun p => p.fst == v) g.useMap with
    | some p =>
      some (v, p.snd.filter (fun op => component.contains op.snd))
    | none => none) component

/-- ConstraintGraph::propagateToNextSCC walks every component member's
use list through the unchecked useMap.find and re-evaluates each
operation found there; the embedding returns the operations that would
be evaluated. -/
def propagateUses (component : List Nat) (g : CGraph) :
    Option (List (Nat × Nat)) :=
  (mapOption (fun v =>
    match List.find? (fun (p : Nat × List (Nat × Nat)) => p.fst == v) g.useMap with
    | some q => some q.snd
    | none => (none : Option (List (Nat × Nat)))) component).map List.flatten

/-- Interval containment a subset-of b, the containment relation of the
monotonicity law: the bounds of b enclose the bounds of a. -/
def Range.subsetOf (a b : Range) : Prop := b.l ≤ a.l ∧ a.u ≤ b.u

instance (a b : Range) : Decidable (a.subsetOf b) :=
  inferInstanceAs (Decidable (_ ∧ _))

/-- Non-Regular intervals carry the sentinel endpoints, as every
Unknown and Empty interval constructed by the source does. -/
def Range.canonicalKind (W : Nat) (r : Range) : Prop :=
  r.type ≠ RangeType.Regular → (r.l = intMin W ∧ r.u = intMax W)

/-- The key invariant of the graph indices: every value with a VarNode
also owns a useMap entry. -/
def cgInv (g : CGraph) : Prop := ∀ v ∈ g.vars, v ∈ useKeys g

/-! Helper lemmas. -/

theorem one_le_two_pow_int (n : Nat) : (1 : Int) ≤ 2 ^ n := by
  have h : (0 : Int) < 2 ^ n := by positivity
  omega

theorem intMin_le_intMax (W : Nat) : intMin W ≤ intMax W := by
  have h := one_le_two_pow_int (W - 1)
  unfold intMin intMax
  omega

theorem wrap_bounds (W : Nat) (x : Int) :
    intMin W ≤ wrap W x ∧ wrap W x ≤ 2 ^ W - 2 ^ (W - 1) - 1 := by
  unfold wrap intMin
  have h2 : (0 : Int) < 2 ^ W := by positivity
  have h1 := Int.emod_nonneg (x + 2 ^ (W - 1)) (ne_of_gt h2)
  have h3 := Int.emod_lt_of_pos (x + 2 ^ (W - 1)) h2
  omega

theorem wrap_le_intMax (W : Nat) (hW : 1 ≤ W) (x : Int) :
    wrap W x ≤ intMax W := by
  have h := wrap_bounds W x
  have hsplit : (2 : Int) ^ W = 2 ^ (W - 1) * 2 := by
    rw [mul_comm, ← pow_succ']
    congr 1
    omega
  unfold intMax
  omega

theorem intMin_le_wrap (W : Nat) (x : Int) : intMin W ≤ wrap W x :=
  (wrap_bounds W x).1

theorem wrap_eq_of_bounds (W : Nat) (hW : 1 ≤ W) (x : Int)
    (hlo : intMin W ≤ x) (hhi : x ≤ intMax W) : wrap W x = x := by
  unfold wrap
  have hsplit : (2 : Int) ^ W = 2 ^ (W - 1) * 2 := by
    rw [mul_comm, ← pow_succ']
    congr 1
    omega
  unfold intMin at hlo
  unfold intMax at hhi
  rw [Int.emod_eq_of_lt (by omega) (by omega)]
  omega

/-! Claim theorems. -/

/-- C1: the claim says getRange returns the VarNode's current interval
for a value present in the graph and Unknown otherwise.  The source
returns the canonical Unknown unconditionally (the vars lookup is
commented out): on a graph whose vars map binds value 0 to the Regular
interval [0, 5], getRange still answers Unknown. -/
theorem claim1_getRange_unconditionally_unknown :
    ConstraintGraph.getRange 8 [(0, ⟨0, 5, .Regular⟩)] 0 = unknownRange 8 ∧
    varsLookup [(0, ⟨0, 5, .Regular⟩)] 0 = some ⟨0, 5, .Regular⟩ ∧
    unknownRange 8 ≠ (⟨0, 5, .Regular⟩ : Range) := by
  refine ⟨rfl, rfl, by decide⟩

/-- C2 counterexample: the promotion guard of BinaryOp::eval runs
before the intersect is applied, so evaluating Add on [0,0] and [5,5]
under the intersect [10,20] returns the Regular interval [10, 5],
whose lower exceeds its upper. -/
theorem claim2_counterexample :
    BinaryOp.eval 8 ⟨0, 0, .Regular⟩ ⟨5, 5, .Regular⟩ .Add
      ⟨10, 20, .Regular⟩ = (⟨10, 5, .Regular⟩ : Range) ∧
    (10 : Int) > 5 := by
  refine ⟨by decide, by decide⟩

/-- C2 (amended): during BinaryOp evaluation the inconsistency guard
promotes the arithmetic result to [Min, Max] before the operation
intersect is applied; consequently whenever the intersect is the full
range, so that no intersection follows the guard, eval never returns a
Regular interval whose lower exceeds its upper. -/
theorem claim2_eval_consistent_when_intersect_full (W : Nat)
    (op1 op2 intersect : Range) (opc : BinOpcode)
    (h : intersect.isMaxRange W = true) :
    (BinaryOp.eval W op1 op2 opc intersect).type = RangeType.Regular →
      (BinaryOp.eval W op1 op2 opc intersect).l ≤
        (BinaryOp.eval W op1 op2 opc intersect).u := by
  intro hreg
  unfold BinaryOp.eval at hreg ⊢
  by_cases h12 : (op1.isRegular && op2.isRegular) = true
  · simp only [h12, if_true, h, Bool.not_true, Bool.false_eq_true,
      if_false] at hreg ⊢
    by_cases hc : (binOpApply W opc op1 op2).l > (binOpApply W opc op1 op2).u
    · simp only [hc, if_true, fullRange]
      exact intMin_le_intMax W
    · simp only [hc, if_false]
      omega
  · simp only [h12, Bool.false_eq_true, if_false] at hreg ⊢
    by_cases he : (op1.isEmpty || op2.isEmpty) = true
    · simp only [he, if_true, emptyRange] at hreg
      exact absurd hreg (by decide)
    · simp only [he, Bool.false_eq_true, if_false, unknownRange] at hreg
      exact absurd hreg (by decide)

/-- C2 witness: at width 8, Add on [1,2] and [3,4] under the full-range
intersect yields a consistent (Regular) interval. -/
theorem claim2_witness :
    (BinaryOp.eval 8 ⟨1, 2, .Regular⟩ ⟨3, 4, .Regular⟩ .Add
      (fullRange 8)).l ≤
      (BinaryOp.eval 8 ⟨1, 2, .Regular⟩ ⟨3, 4, .Regular⟩ .Add
        (fullRange 8)).u :=
  claim2_eval_consistent_when_intersect_full 8 ⟨1, 2, .Regular⟩
    ⟨3, 4, .Regular⟩ (fullRange 8) .Add (by decide) (by decide)

/-- C3 counterexample: with the divisor exactly the singleton zero, the
zero-endpoint test of srem fires first and returns the full Regular
range [Min, Max], not Empty as the claim states. -/
theorem claim3_counterexample :
    Range.srem 8 ⟨1, 1, .Regular⟩ ⟨0, 0, .Regular⟩ = fullRange 8 ∧
    (Range.srem 8 ⟨1, 1, .Regular⟩ ⟨0, 0, .Regular⟩).type ≠
      RangeType.Empty := by
  refine ⟨by decide, by decide⟩

/-- C3 (amended): srem returns Empty exactly for the Empty divisor; for
the singleton zero divisor the zero-endpoint test precedes the
singleton test and the result is the full range [Min, Max]. -/
theorem claim3_srem_zero_and_empty_divisors (W : Nat) (a : Range)
    (hW : 2 ≤ W) :
    Range.srem W a (emptyRange W) = emptyRange W ∧
    Range.srem W a ⟨0, 0, .Regular⟩ = fullRange W := by
  have h1 : (1 : Int) ≤ 2 ^ (W - 1) := one_le_two_pow_int (W - 1)
  have h2 : (2 : Int) ≤ 2 ^ (W - 1) := by
    calc (2 : Int) = 2 ^ 1 := by norm_num
    _ ≤ 2 ^ (W - 1) := pow_le_pow_right₀ (by norm_num) (by omega)
  have hminne : intMin W ≠ 0 := by unfold intMin; omega
  have hmaxne : intMax W ≠ 0 := by unfold intMax; omega
  constructor
  · show Range.srem W a (emptyRange W) = emptyRange W
    unfold Range.srem
    rw [if_neg, if_pos]
    · exact Or.inr rfl
    · simp only [emptyRange]
      exact fun hor => hor.elim hminne hmaxne
  · unfold Range.srem
    rw [if_pos]
    exact Or.inl rfl

/-- C3 witness: at width 8 the amended statement holds for the dividend
[3, 7]. -/
theorem claim3_witness :
    Range.srem 8 ⟨3, 7, .Regular⟩ (emptyRange 8) = emptyRange 8 ∧
    Range.srem 8 ⟨3, 7, .Regular⟩ ⟨0, 0, .Regular⟩ = fullRange 8 :=
  claim3_srem_zero_and_empty_divisors 8 ⟨3, 7, .Regular⟩ (by decide)

/-- C6 counterexample: union of the Empty interval with Unknown yields
Unknown, not the Empty interval back, because the Empty short-circuit
of unionWith returns the other operand. -/
theorem claim6_counterexample :
    (emptyRange 8).unionWith (unknownRange 8) = unknownRange 8 ∧
    (emptyRange 8).unionWith (unknownRange 8) ≠ emptyRange 8 := by
  refine ⟨by decide, by decide⟩

/-- C6 (amended): for every interval r whose non-Regular kinds carry
the canonical sentinel endpoints, union with Empty is the identity,
intersection with Empty is Empty, intersection with Unknown is the
identity, and union with Unknown is the identity unless r is Empty (in
which case it yields Unknown). -/
theorem claim6_lattice_identities (W : Nat) (r : Range)
    (h : r.canonicalKind W) :
    r.unionWith (emptyRange W) = r ∧
    Range.intersectWith W r (emptyRange W) = emptyRange W ∧
    Range.intersectWith W r (unknownRange W) = r ∧
    (r.type ≠ RangeType.Empty → r.unionWith (unknownRange W) = r) := by
  obtain ⟨l, u, t⟩ := r
  cases t
  · simp [Range.unionWith, Range.intersectWith, Range.isEmpty,
      Range.isUnknown, emptyRange, unknownRange]
  · obtain ⟨hl, hu⟩ := h (fun hx => RangeType.noConfusion hx)
    subst hl
    subst hu
    simp [Range.unionWith, Range.intersectWith, Range.isEmpty,
      Range.isUnknown, emptyRange, unknownRange]
  · obtain ⟨hl, hu⟩ := h (fun hx => RangeType.noConfusion hx)
    subst hl
    subst hu
    simp [Range.unionWith, Range.intersectWith, Range.isEmpty,
      Range.isUnknown, emptyRange, unknownRange]

/-- C6 witness: the amended identities at width 8 for [3, 5]. -/
theorem claim6_witness :
    (⟨3, 5, .Regular⟩ : Range).unionWith (emptyRange 8) =
      ⟨3, 5, .Regular⟩ ∧
    Range.intersectWith 8 ⟨3, 5, .Regular⟩ (emptyRange 8) =
      emptyRange 8 ∧
    Range.intersectWith 8 ⟨3, 5, .Regular⟩ (unknownRange 8) =
      ⟨3, 5, .Regular⟩ ∧
    ((⟨3, 5, .Regular⟩ : Range).type ≠ RangeType.Empty →
      (⟨3, 5, .Regular⟩ : Range).unionWith (unknownRange 8) =
        ⟨3, 5, .Regular⟩) :=
  claim6_lattice_identities 8 ⟨3, 5, .Regular⟩
    (fun hne => absurd rfl hne)

/-- C7 counterexample: a ConstantInt value (here 5) with no defMap
entry is initialised by buildVarNodes to its singleton interval [5, 5],
not to the full range [Min, Max] required by the claim for every
VarNode without a defMap entry. -/
theorem claim7_counterexample :
    buildVarNodes 8 [] [(⟨0, some 5⟩, unknownRange 8)] =
      [(⟨0, some 5⟩, ⟨5, 5, .Regular⟩)] ∧
    (⟨5, 5, .Regular⟩ : Range) ≠ fullRange 8 := by
  refine ⟨by decide, by decide⟩

/-- C7 (amended): after buildVarNodes a ConstantInt VarNode holds its
singleton interval regardless of defMap; a non-constant VarNode with no
defMap entry holds [Min, Max] Regular; a non-constant VarNode with a
defMap entry holds Unknown. -/
theorem claim7_buildVarNodes_init (W : Nat) (defKeys : List Nat)
    (vars : List (IRValue × Range)) (v : IRValue) (r : Range)
    (hmem : (v, r) ∈ buildVarNodes W defKeys vars) :
    (∀ c, v.constVal = some c → r = ⟨c, c, .Regular⟩) ∧
    (v.constVal = none → v.id ∉ defKeys → r = fullRange W) ∧
    (v.constVal = none → v.id ∈ defKeys → r = unknownRange W) := by
  unfold buildVarNodes at hmem
  rw [List.mem_map] at hmem
  obtain ⟨p, hp, heq⟩ := hmem
  rw [Prod.mk.injEq] at heq
  obtain ⟨hv, hr⟩ := heq
  subst hv
  subst hr
  refine ⟨?_, ?_, ?_⟩
  · intro c hc
    simp [VarNode.init, hc]
  · intro hnone hnotin
    have hcf : defKeys.contains p.fst.id = false := by
      rw [Bool.eq_false_iff]
      intro hc
      exact hnotin (List.elem_iff.mp hc)
    simp only [VarNode.init, hnone, hcf, Bool.not_false, if_true]
  · intro hnone hin
    have hcf : defKeys.contains p.fst.id = true := List.elem_iff.mpr hin
    simp only [VarNode.init, hnone, hcf, Bool.not_true, Bool.false_eq_true,
      if_false]

/-- C7 witness: a non-constant value with a defMap entry stays Unknown
after buildVarNodes at width 8. -/
theorem claim7_witness :
    (∀ c, (⟨1, none⟩ : IRValue).constVal = some c →
      unknownRange 8 = ⟨c, c, .Regular⟩) ∧
    ((⟨1, none⟩ : IRValue).constVal = none → (1 : Nat) ∉ [1] →
      unknownRange 8 = fullRange 8) ∧
    ((⟨1, none⟩ : IRValue).constVal = none → (1 : Nat) ∈ [1] →
      unknownRange 8 = unknownRange 8) :=
  claim7_buildVarNodes_init 8 [1] [(⟨1, none⟩, fullRange 8)]
    ⟨1, none⟩ (unknownRange 8) (by decide)

/-- C9 counterexample: PhiOp::eval reads source 0 unconditionally, so
on a PhiOp with no sources (as the inter-procedural matcher initially
creates) the evaluation is an out-of-bounds access, modelled as none:
eval is not well defined for zero sources. -/
theorem claim9_counterexample : PhiOp.eval [] = none := rfl

/-- C9 (amended): PhiOp::eval is well defined exactly for PhiOps with
at least one source, and then returns the unionWith fold of the ranges
of all sources; the matcher's initially sourceless PhiOps must receive
a source before evaluation. -/
theorem claim9_phi_eval_union_fold :
    (∀ sources : List Range, (PhiOp.eval sources).isSome ↔ sources ≠ []) ∧
    (∀ (s : Range) (rest : List Range),
      PhiOp.eval (s :: rest) = some (rest.foldl Range.unionWith s)) := by
  constructor
  · intro sources
    cases sources <;> simp [PhiOp.eval]
  · intro s rest
    rfl

/-! Corner-combination helpers for the division operations. -/

theorem if_corner_min_le (W : Nat) (c : Prop) [Decidable c] (x : Int)
    (hx : intMin W ≤ x) : intMin W ≤ if c then x else intMin W := by
  by_cases hc : c <;> simp [hc, hx]

theorem if_corner_le_max (W : Nat) (c : Prop) [Decidable c] (x : Int)
    (hx : x ≤ intMax W) : (if c then x else intMax W) ≤ intMax W := by
  by_cases hc : c <;> simp [hc, hx]

theorem intMin_le_fromU (W : Nat) (n : Nat) : intMin W ≤ fromU W n :=
  intMin_le_wrap W n

theorem fromU_le_intMax (W : Nat) (hW : 1 ≤ W) (n : Nat) :
    fromU W n ≤ intMax W :=
  wrap_le_intMax W hW n

theorem corner_full_left (W : Nat) (ll lu ul uu : Int)
    (h1 : ll = intMin W) (h2 : ul = intMax W)
    (h3 : intMin W ≤ lu) (h4 : uu ≤ intMax W) :
    (⟨if ll < lu then ll else lu, if uu > ul then uu else ul,
      .Regular⟩ : Range) = fullRange W := by
  subst h1
  subst h2
  unfold fullRange
  rw [Range.mk.injEq]
  refine ⟨?_, ?_, rfl⟩
  · by_cases hc : intMin W < lu
    · simp [hc]
    · simp only [hc, if_false]
      omega
  · by_cases hc : uu > intMax W
    · omega
    · simp [hc]

theorem corner_full_right (W : Nat) (ll lu ul uu : Int)
    (h1 : lu = intMin W) (h2 : uu = intMax W)
    (h3 : intMin W ≤ ll) (h4 : ul ≤ intMax W) :
    (⟨if ll < lu then ll else lu, if uu > ul then uu else ul,
      .Regular⟩ : Range) = fullRange W := by
  subst h1
  subst h2
  unfold fullRange
  rw [Range.mk.injEq]
  refine ⟨?_, ?_, rfl⟩
  · by_cases hc : ll < intMin W
    · omega
    · simp [hc]
  · by_cases hc : intMax W > ul
    · simp [hc]
    · simp only [hc, if_false]
      omega

/-- C4: for the unchecked division and remainder operations udiv, sdiv
and urem, a divisor interval carrying zero as its lower or upper bound
makes the result the full range [Min, Max]: urem by the explicit guard,
udiv and sdiv because the zero-guarded corners keep their sentinel
defaults, which then win the final min and max selection. -/
theorem claim4_division_zero_bound_full (W : Nat) (hW : 1 ≤ W)
    (a other : Range) (ha : a.type = RangeType.Regular)
    (ho : other.type = RangeType.Regular)
    (hz : other.l = 0 ∨ other.u = 0) :
    Range.udiv W a other = fullRange W ∧
    Range.sdiv W a other = fullRange W ∧
    Range.urem W a other = fullRange W := by
  refine ⟨?_, ?_, ?_⟩
  · simp only [Range.udiv]
    rcases hz with hz | hz
    · exact corner_full_left W _ _ _ _ (if_neg (by simp [hz]))
        (if_neg (by simp [hz]))
        (if_corner_min_le W _ _ (intMin_le_fromU W _))
        (if_corner_le_max W _ _ (fromU_le_intMax W hW _))
    · exact corner_full_right W _ _ _ _ (if_neg (by simp [hz]))
        (if_neg (by simp [hz]))
        (if_corner_min_le W _ _ (intMin_le_fromU W _))
        (if_corner_le_max W _ _ (fromU_le_intMax W hW _))
  · simp only [Range.sdiv]
    rcases hz with hz | hz
    · exact corner_full_left W _ _ _ _ (if_neg (by simp [hz]))
        (if_neg (by simp [hz]))
        (if_corner_min_le W _ _ (intMin_le_wrap W _))
        (if_corner_le_max W _ _ (wrap_le_intMax W hW _))
    · exact corner_full_right W _ _ _ _ (if_neg (by simp [hz]))
        (if_neg (by simp [hz]))
        (if_corner_min_le W _ _ (intMin_le_wrap W _))
        (if_corner_le_max W _ _ (wrap_le_intMax W hW _))
  · unfold Range.urem
    rw [if_pos hz]

/-- C4 witness: at width 8, dividing [8, 8] by the zero-bounded divisor
[0, 2] yields the full range under all three operations. -/
theorem claim4_witness :
    Range.udiv 8 ⟨8, 8, .Regular⟩ ⟨0, 2, .Regular⟩ = fullRange 8 ∧
    Range.sdiv 8 ⟨8, 8, .Regular⟩ ⟨0, 2, .Regular⟩ = fullRange 8 ∧
    Range.urem 8 ⟨8, 8, .Regular⟩ ⟨0, 2, .Regular⟩ = fullRange 8 :=
  claim4_division_zero_bound_full 8 (by decide) ⟨8, 8, .Regular⟩
    ⟨0, 2, .Regular⟩ rfl rfl (Or.inl rfl)

/-- C5 counterexample: arithmetic is not monotone.  At width 8,
[100, 100] is contained in [27, 100] and [100, 100] in itself, yet the
wrapped sum [100,100] + [100,100] = [-56,-56] is not contained in
[27,100] + [100,100] = [127,-56]. -/
theorem claim5_counterexample :
    Range.subsetOf ⟨100, 100, .Regular⟩ ⟨27, 100, .Regular⟩ ∧
    Range.subsetOf ⟨100, 100, .Regular⟩ ⟨100, 100, .Regular⟩ ∧
    ¬ Range.subsetOf
        (Range.add 8 ⟨100, 100, .Regular⟩ ⟨100, 100, .Regular⟩)
        (Range.add 8 ⟨27, 100, .Regular⟩ ⟨100, 100, .Regular⟩) := by
  refine ⟨by decide, by decide, by decide⟩

/-- C5 (amended): add and sub are monotone with respect to interval
containment on valid intervals (endpoints inside [Min, Max], lower at
most upper) whenever the bound computations of the outer operands do
not leave the W-bit signed window; the operations are not monotone in
general because overflowing bounds wrap. -/
theorem claim5_add_sub_monotone (W : Nat) (hW : 1 ≤ W)
    (a b c d : Range) (hab : a.subsetOf b) (hcd : c.subsetOf d)
    (hbl : intMin W ≤ b.l) (hbu : b.u ≤ intMax W)
    (hdl : intMin W ≤ d.l) (hdu : d.u ≤ intMax W)
    (hawf : a.l ≤ a.u) (hbwf : b.l ≤ b.u)
    (hcwf : c.l ≤ c.u) (hdwf : d.l ≤ d.u)
    (haddl : intMin W ≤ b.l + d.l) (haddu : b.u + d.u ≤ intMax W)
    (hsubl : intMin W ≤ b.l - d.u) (hsubu : b.u - d.l ≤ intMax W) :
    (Range.add W a c).subsetOf (Range.add W b d) ∧
    (Range.sub W a c).subsetOf (Range.sub W b d) := by
  obtain ⟨hab1, hab2⟩ := hab
  obtain ⟨hcd1, hcd2⟩ := hcd
  have wbd_l : wrap W (b.l + d.l) = b.l + d.l :=
    wrap_eq_of_bounds W hW _ (by omega) (by omega)
  have wbd_u : wrap W (b.u + d.u) = b.u + d.u :=
    wrap_eq_of_bounds W hW _ (by omega) (by omega)
  have wac_l : wrap W (a.l + c.l) = a.l + c.l :=
    wrap_eq_of_bounds W hW _ (by omega) (by omega)
  have wac_u : wrap W (a.u + c.u) = a.u + c.u :=
    wrap_eq_of_bounds W hW _ (by omega) (by omega)
  have sbd_l : wrap W (b.l - d.u) = b.l - d.u :=
    wrap_eq_of_bounds W hW _ (by omega) (by omega)
  have sbd_u : wrap W (b.u - d.l) = b.u - d.l :=
    wrap_eq_of_bounds W hW _ (by omega) (by omega)
  have sac_l : wrap W (a.l - c.u) = a.l - c.u :=
    wrap_eq_of_bounds W hW _ (by omega) (by omega)
  have sac_u : wrap W (a.u - c.l) = a.u - c.l :=
    wrap_eq_of_bounds W hW _ (by omega) (by omega)
  refine ⟨⟨?_, ?_⟩, ⟨?_, ?_⟩⟩
  · simp only [Range.add]
    rw [wbd_l, wac_l]
    split_ifs <;> omega
  · simp only [Range.add]
    rw [wbd_u, wac_u]
    split_ifs <;> omega
  · simp only [Range.sub]
    rw [sbd_l, sac_l]
    split_ifs <;> omega
  · simp only [Range.sub]
    rw [sbd_u, sac_u]
    split_ifs <;> omega

/-- C5 witness: monotonicity of add and sub at width 8 for [1, 2]
inside itself and [3, 4] inside itself. -/
theorem claim5_witness :
    (Range.add 8 ⟨1, 2, .Regular⟩ ⟨3, 4, .Regular⟩).subsetOf
      (Range.add 8 ⟨1, 2, .Regular⟩ ⟨3, 4, .Regular⟩) ∧
    (Range.sub 8 ⟨1, 2, .Regular⟩ ⟨3, 4, .Regular⟩).subsetOf
      (Range.sub 8 ⟨1, 2, .Regular⟩ ⟨3, 4, .Regular⟩) :=
  claim5_add_sub_monotone 8 (by decide) ⟨1, 2, .Regular⟩
    ⟨1, 2, .Regular⟩ ⟨3, 4, .Regular⟩ ⟨3, 4, .Regular⟩ (by decide)
    (by decide) (by decide) (by decide) (by decide) (by decide)
    (by decide) (by decide) (by decide) (by decide) (by decide)
    (by decide) (by decide) (by decide)

theorem updateBounded_evals_le (W : Nat) (n : Nat) (um : CompUseMap)
    (pending : List COp) (actv : List Nat) (σ : IntervalState) :
    (updateBounded W n um pending actv σ).evals ≤ n ∧
    (updateBounded W n um pending actv σ).active = [] := by
  induction n, um, pending, actv, σ using updateBounded.induct W with
  | case1 um actv σ op rest =>
    rw [updateBounded]
    exact ⟨Nat.zero_le 0, rfl⟩
  | case2 um actv σ op rest n step actv1 ih =>
    rw [updateBounded]
    exact ⟨Nat.succ_le_succ ih.1, ih.2⟩
  | case3 n um σ =>
    rw [updateBounded]
    exact ⟨Nat.zero_le n, rfl⟩
  | case4 n um σ V restA ih =>
    rw [updateBounded]
    exact ih

/-- C8: the warmup phase that findIntervals runs on a multi-node SCC
before widening performs at most two times the SCC size re-evaluations
under the non-widening fixed update (the bitwise-or with
NUMBER_FIXED_ITERATIONS adds nothing), and the bounded update always
ends with an empty active set: on exhaustion it clears the set and
stops even if no fixpoint was reached. -/
theorem claim8_warmup_bounded (W sccSize : Nat) (um : CompUseMap)
    (entryPoints : List Nat) (σ : IntervalState) :
    (warmupUpdate W sccSize um entryPoints σ).evals ≤ 2 * sccSize ∧
    (warmupUpdate W sccSize um entryPoints σ).active = [] := by
  have hb : warmupIterationBound sccSize = 2 * sccSize := by
    unfold warmupIterationBound NUMBER_FIXED_ITERATIONS
    show sccSize * 2 ||| 0 = 2 * sccSize
    rw [Nat.or_zero, Nat.mul_comm]
  have h := updateBounded_evals_le W (warmupIterationBound sccSize) um []
    entryPoints σ
  rw [hb] at h
  unfold warmupUpdate
  rw [hb]
  exact h

/-! Lemmas for the graph key invariant. -/

theorem map_fst_update (l : List (Nat × List (Nat × Nat))) (v : Nat)
    (op : Nat × Nat) :
    (l.map (fun p => if p.fst = v then (p.fst, op :: p.snd) else p)).map
      Prod.fst = l.map Prod.fst := by
  induction l with
  | nil => rfl
  | cons hd t ih => by_cases hc : hd.fst = v <;> simp [hc, ih]

theorem map_fst_filter (l : List (Nat × List (Nat × Nat)))
    (cdIds : List Nat) :
    (l.map (fun p =>
      (p.fst, p.snd.filter (fun op => !(cdIds.contains op.fst))))).map
      Prod.fst = l.map Prod.fst := by
  induction l with
  | nil => rfl
  | cons hd t ih => simp [ih]

theorem addVarNode_mem_vars (g : CGraph) (v : Nat) :
    v ∈ (addVarNode g v).vars := by
  unfold addVarNode
  by_cases hc : v ∈ g.vars <;> simp [hc]

theorem cgInv_addVarNode (g : CGraph) (v : Nat) (h : cgInv g) :
    cgInv (addVarNode g v) := by
  unfold addVarNode
  by_cases hc : v ∈ g.vars
  · simpa [hc] using h
  · simp only [hc, if_false]
    unfold cgInv
    intro w hw
    rw [List.mem_cons] at hw
    rcases hw with rfl | hw
    · simp [useKeys]
    · have hmem := h w hw
      simp only [useKeys] at hmem ⊢
      simp [hmem]

theorem useMapInsert_spec (g : CGraph) (v : Nat) (op : Nat × Nat)
    (h : v ∈ useKeys g) :
    ∃ g', useMapInsert g v op = some g' ∧ g'.vars = g.vars ∧
      useKeys g' = useKeys g := by
  unfold useMapInsert
  rw [if_pos h]
  refine ⟨_, rfl, rfl, ?_⟩
  simp only [useKeys]
  exact map_fst_update g.useMap v op

theorem addOpSources_spec (op : Nat × Nat) (sources : List Nat) :
    ∀ g : CGraph, cgInv g →
      ∃ g', addOpSources g op sources = some g' ∧ cgInv g' := by
  induction sources with
  | nil =>
    intro g hg
    exact ⟨g, rfl, hg⟩
  | cons s rest ih =>
    intro g hg
    have hg1 : cgInv (addVarNode g s) := cgInv_addVarNode g s hg
    have hk : s ∈ useKeys (addVarNode g s) :=
      hg1 s (addVarNode_mem_vars g s)
    obtain ⟨g2, hins, hvars, hkeys⟩ :=
      useMapInsert_spec (addVarNode g s) s op hk
    have hg2 : cgInv g2 := by
      intro w hw
      rw [hkeys]
      exact hg1 w (hvars ▸ hw)
    obtain ⟨g3, hrest, hg3⟩ := ih g2 hg2
    refine ⟨g3, ?_, hg3⟩
    unfold addOpSources at hrest ⊢
    rw [List.foldlM_cons, hins]
    exact hrest

theorem cgInv_bracketInsert (g : CGraph) (v : Nat) (op : Nat × Nat)
    (h : cgInv g) : cgInv (bracketInsert g v op) := by
  unfold bracketInsert
  by_cases hc : v ∈ useKeys g
  · simp only [hc, if_true]
    intro w hw
    show w ∈ useKeys ⟨g.vars, _⟩
    simp only [useKeys]
    rw [map_fst_update]
    exact h w hw
  · simp only [hc, if_false]
    intro w hw
    have := h w hw
    simp only [useKeys] at this ⊢
    simp [this]

theorem cgInv_delControlDepEdges (g : CGraph) (cdIds : List Nat)
    (h : cgInv g) : cgInv (delControlDepEdges g cdIds) := by
  unfold delControlDepEdges
  intro w hw
  show w ∈ useKeys ⟨g.vars, _⟩
  simp only [useKeys]
  rw [map_fst_filter]
  exact h w hw

theorem stepGraph_spec (g : CGraph) (e : GraphEvent) (h : cgInv g) :
    ∃ g', stepGraph g e = some g' ∧ cgInv g' := by
  cases e with
  | addVar v => exact ⟨_, rfl, cgInv_addVarNode g v h⟩
  | addOperation opId sink sources =>
    have h1 : cgInv (addVarNode g sink) := cgInv_addVarNode g sink h
    obtain ⟨g', hs, hg'⟩ :=
      addOpSources_spec (opId, sink) sources (addVarNode g sink) h1
    exact ⟨g', hs, hg'⟩
  | addControlDep opId sink bound =>
    exact ⟨_, rfl, cgInv_bracketInsert g bound (opId, sink) h⟩
  | delControlDeps cdIds =>
    exact ⟨_, rfl, cgInv_delControlDepEdges g cdIds h⟩

theorem runGraph_spec (events : List GraphEvent) :
    ∀ g : CGraph, cgInv g →
      ∃ g', events.foldlM stepGraph g = some g' ∧ cgInv g' := by
  induction events with
  | nil =>
    intro g hg
    exact ⟨g, rfl, hg⟩
  | cons e rest ih =>
    intro g hg
    obtain ⟨g1, hstep, hg1⟩ := stepGraph_spec g e hg
    obtain ⟨g2, hrest, hg2⟩ := ih g1 hg1
    refine ⟨g2, ?_, hg2⟩
    rw [List.foldlM_cons, hstep]
    exact hrest

theorem find?_isSome_of_mem_keys {α : Type} (l : List (Nat × α)) (v : Nat)
    (h : v ∈ l.map Prod.fst) :
    (List.find? (fun p => p.fst == v) l).isSome = true := by
  induction l with
  | nil => simp at h
  | cons hd t ih =>
    by_cases hc : hd.fst = v
    · simp [List.find?, hc]
    · rw [List.map_cons, List.mem_cons] at h
      rcases h with h | h


      · exact absurd h.symm hc
      · rw [List.find?]
        have hbeq : (hd.fst == v) = false := by simp [hc]
        rw [hbeq]
        exact ih h

theorem mapOption_isSome {A B : Type} (f : A → Option B) (l : List A)
    (h : ∀ x ∈ l, (f x).isSome = true) :
    (mapOption f l).isSome = true := by
  induction l with
  | nil => rfl
  | cons hd t ih =>
    obtain ⟨b, hb⟩ := Option.isSome_iff_exists.mp (h hd (by simp))
    have ht := ih (fun x hx => h x (by simp [hx]))
    obtain ⟨bs, hbs⟩ := Option.isSome_iff_exists.mp ht
    rw [mapOption, hb, hbs]
    rfl

/-- C10: addVarNode establishes the vars entry and the useMap entry of
a value together, and every later graph mutation preserves the
containment of vars keys in useMap keys.  Hence every graph-building
history succeeds (the unchecked use-list insertions of the operation
builders find their keys), and on the resulting graph the unchecked
useMap.find dereferences of buildUseMap and propagateToNextSCC find
their key for every component made of graph values. -/
theorem claim10_useMap_keys_invariant (events : List GraphEvent) :
    (runGraph events).isSome = true ∧
    ∀ g, runGraph events = some g →
      cgInv g ∧
      ∀ component : List Nat, (∀ v ∈ component, v ∈ g.vars) →
        (buildCompUseMap component g).isSome = true ∧
        (propagateUses component g).isSome = true := by
  have hinv0 : cgInv emptyCG := by
    intro v hv
    simp [emptyCG] at hv
  obtain ⟨g0, hrun, hinv⟩ := runGraph_spec events emptyCG hinv0
  constructor
  · unfold runGraph
    rw [hrun]
    rfl
  · intro g hg
    unfold runGraph at hg
    rw [hrun] at hg
    obtain rfl : g0 = g := Option.some_injective _ hg
    refine ⟨hinv, ?_⟩
    intro component hcomp
    constructor
    · apply mapOption_isSome
      intro v hv
      have hkey : v ∈ useKeys g0 := hinv v (hcomp v hv)
      have hfind := find?_isSome_of_mem_keys g0.useMap v
        (by simpa [useKeys] using hkey)
      obtain ⟨p, hp⟩ := Option.isSome_iff_exists.mp hfind
      rw [hp]
      rfl
    · unfold propagateUses
      have hsome : (mapOption (fun v =>
          match List.find? (fun (p : Nat × List (Nat × Nat)) =>
            p.fst == v) g0.useMap with
          | some q => some q.snd
          | none => (none : Option (List (Nat × Nat)))) component).isSome =
            true := by
        apply mapOption_isSome
        intro v hv
        have hkey : v ∈ useKeys g0 := hinv v (hcomp v hv)
        have hfind := find?_isSome_of_mem_keys g0.useMap v
          (by simpa [useKeys] using hkey)
        obtain ⟨p, hp⟩ := Option.isSome_iff_exists.mp hfind
        rw [hp]
        rfl
      obtain ⟨ys, hys⟩ := Option.isSome_iff_exists.mp hsome
      rw [hys]
      rfl

/-- C10 witness: a concrete graph-building history with an operation,
a control-dependence pseudo-edge and its removal; the component made of
values 0 and 1 is processed by buildUseMap and propagateToNextSCC
without a failing dereference. -/
theorem claim10_witness :
    (buildCompUseMap [0, 1]
      ⟨[2, 1, 0], [(2, [(5, 1)]), (1, []), (0, [(5, 1)])]⟩).isSome = true ∧
    (propagateUses [0, 1]
      ⟨[2, 1, 0], [(2, [(5, 1)]), (1, []), (0, [(5, 1)])]⟩).isSome = true :=
  ((claim10_useMap_keys_invariant
      [.addVar 0, .addOperation 5 1 [0, 2], .addControlDep 6 1 0,
        .delControlDeps [6]]).2
    ⟨[2, 1, 0], [(2, [(5, 1)]), (1, []), (0, [(5, 1)])]⟩ rfl).2
    [0, 1] (by decide)

end RA
